import Mathlib

/-!
Shallow embedding of the currency converter (`src/sample_project.py`).

Rates are modelled as rationals (`ℚ`), timestamps as integers counting
minutes (so the one-hour freshness window is 60).  A rate mapping
(a Python `Dict[str, float]`) is an association list preserving
insertion order; dictionary keys are distinct, which appears as a
`Nodup` hypothesis where it matters.

The network is a function from URL to an HTTP outcome: either failure
(connection error, timeout, non-2xx status, invalid JSON — all of which
raise in the Python code) or a JSON object restricted to the fields the
code reads (`result`, `rates`, `conversion_rates`, `error-type`).

The SQLite tables are lists of rows in insertion order.  `ORDER BY
timestamp DESC LIMIT 1` leaves the order of equal timestamps
unspecified; the model determinizes ties to the most recently inserted
row.
-/

/-- A rate mapping: association list from currency code to rate. -/
abbrev Rates := List (String × ℚ)

/-- The JSON object fields read by the fetchers. -/
structure ApiResponse where
  result : Option String := none
  rates : Option Rates := none
  conversion_rates : Option Rates := none
  error_type : Option String := none

/-- Outcome of one HTTP GET: failure covers network errors, timeouts,
non-2xx statuses and unparseable bodies, which all raise exceptions. -/
inductive HttpResult where
  | failure : HttpResult
  | success : ApiResponse → HttpResult

/-- The network environment: what each URL returns. -/
abbrev Http := String → HttpResult

/-- `CurrencyAPI.__init__`: the free and premium endpoints are fixed. -/
structure CurrencyAPI where
  api_key : Option String := none

/-- `self.free_apis` from `CurrencyAPI.__init__`. -/
def free_apis : List String :=
  ["https://open.er-api.com/v6/latest/",
   "https://api.exchangerate-api.com/v4/latest/"]

/-- `self.premium_api` from `CurrencyAPI.__init__`. -/
def premium_api : String := "https://v6.exchangerate-api.com/v6/"

/-- Python truthiness of `self.api_key` (`if self.api_key:`): `None` and
the empty string are falsy. -/
def truthy : Option String → Bool
  | none => false
  | some s => s != ""

/-- `CurrencyAPI._fetch_premium_rates`. -/
def fetch_premium_rates (api : CurrencyAPI) (http : Http)
    (base_currency : String) : Except String Rates :=
  let url := premium_api ++ api.api_key.getD "" ++ "/latest/" ++ base_currency
  match http url with
  | .failure => .error "HTTPError"
  | .success data =>
      if data.result = some "success" then
        match data.conversion_rates with
        | some m => .ok m
        | none => .error "KeyError"
      else
        .error ("API error: " ++ data.error_type.getD "Unknown error")

/-- `CurrencyAPI._fetch_free_rates`. -/
def fetch_free_rates (http : Http) (api_url base_currency : String) :
    Except String Rates :=
  let url := api_url ++ base_currency
  match http url with
  | .failure => .error "HTTPError"
  | .success data =>
      match data.rates with
      | some m => .ok m
      | none =>
          match data.conversion_rates with
          | some m => .ok m
          | none => .error "Unexpected API response format"

/-- `CurrencyAPI._get_fallback_rates`: the hard-coded table. -/
def get_fallback_rates : Rates :=
  [("USD", 1), ("EUR", 85/100), ("GBP", 73/100), ("JPY", 110),
   ("AUD", 135/100), ("CAD", 125/100), ("CHF", 92/100), ("CNY", 645/100),
   ("ZAR", 155/10), ("INR", 745/10), ("BRL", 52/10), ("RUB", 735/10),
   ("KRW", 1180), ("SGD", 135/100), ("HKD", 78/10), ("MXN", 205/10),
   ("SEK", 86/10), ("NOK", 89/10), ("DKK", 64/10), ("PLN", 39/10),
   ("TRY", 85/10), ("CZK", 22), ("HUF", 300), ("RON", 42/10)]

/-- The free-API loop in `CurrencyAPI.get_exchange_rates`: try each URL
in order, return the first success. -/
def try_free_apis (http : Http) (base_currency : String) :
    List String → Option Rates
  | [] => none
  | url :: rest =>
      match fetch_free_rates http url base_currency with
      | .ok m => some m
      | .error _ => try_free_apis http base_currency rest

/-- `CurrencyAPI.get_exchange_rates`: premium first when a key is
configured, then the free APIs in order, then the fallback table. -/
def get_exchange_rates (api : CurrencyAPI) (http : Http)
    (base_currency : String) : Rates :=
  if truthy api.api_key then
    match fetch_premium_rates api http base_currency with
    | .ok m => m
    | .error _ => (try_free_apis http base_currency free_apis).getD get_fallback_rates
  else
    (try_free_apis http base_currency free_apis).getD get_fallback_rates

/-- A source attempted by `get_exchange_rates`: the premium endpoint or
the free endpoint at a given index of `free_apis`. -/
inductive Source where
  | premium : Source
  | free : ℕ → Source
deriving DecidableEq

/-- The free-API loop, instrumented with the list of sources attempted,
in order.  `i` is the index of the first URL of the remaining list. -/
def try_free_apis_trace (http : Http) (base_currency : String) :
    ℕ → List String → List Source × Option Rates
  | _, [] => ([], none)
  | i, url :: rest =>
      match fetch_free_rates http url base_currency with
      | .ok m => ([Source.free i], some m)
      | .error _ =>
          let p := try_free_apis_trace http base_currency (i + 1) rest
          (Source.free i :: p.1, p.2)

/-- `CurrencyAPI.get_exchange_rates`, instrumented with the list of
sources attempted, in attempt order. -/
def get_exchange_rates_trace (api : CurrencyAPI) (http : Http)
    (base_currency : String) : List Source × Rates :=
  if truthy api.api_key then
    match fetch_premium_rates api http base_currency with
    | .ok m => ([Source.premium], m)
    | .error _ =>
        let p := try_free_apis_trace http base_currency 0 free_apis
        (Source.premium :: p.1, p.2.getD get_fallback_rates)
  else
    let p := try_free_apis_trace http base_currency 0 free_apis
    (p.1, p.2.getD get_fallback_rates)

/-- Modelled from the spec: the sequence of sources `resolve` consults,
paired with each attempt outcome — premium first when a key is
configured, then the free sources in priority order. -/
def spec_outcomes (api : CurrencyAPI) (http : Http) (base_currency : String) :
    List (Source × Except String Rates) :=
  (if truthy api.api_key
   then [(Source.premium, fetch_premium_rates api http base_currency)]
   else [])
  ++ (free_apis.enum.map
        fun p => (Source.free p.1, fetch_free_rates http p.2 base_currency))

/-- Modelled from the spec: run down the source list, stopping at the
first success; returns the sources attempted and the first success. -/
def spec_run : List (Source × Except String Rates) → List Source × Option Rates
  | [] => ([], none)
  | (s, .ok m) :: _ => ([s], some m)
  | (s, .error _) :: rest =>
      let p := spec_run rest
      (s :: p.1, p.2)

/-- One hour, in minutes: the freshness window `timedelta(hours=1)`. -/
def one_hour : ℤ := 60

/-- A row of the `exchange_rates` table. -/
structure RateRow where
  base_currency : String
  target_currency : String
  rate : ℚ
  timestamp : ℤ
  source : String := "API"
deriving DecidableEq

/-- `DatabaseManager.cache_exchange_rates`: delete the rows of this base
currency older than one hour, then insert one row per target currency,
all stamped `now` (`datetime.now()` at the call). -/
def cache_exchange_rates (db : List RateRow) (base_currency : String)
    (rates : Rates) (now : ℤ) : List RateRow :=
  let one_hour_ago := now - one_hour
  let cleared := db.filter fun r =>
    !(decide (r.base_currency = base_currency) && decide (r.timestamp < one_hour_ago))
  cleared ++ rates.map fun p =>
    { base_currency := base_currency, target_currency := p.1,
      rate := p.2, timestamp := now }

/-- `ORDER BY timestamp DESC LIMIT 1` over a list of candidate rows in
insertion order.  SQL leaves the relative order of equal timestamps
unspecified; the model picks the most recently inserted row among those
with the maximal timestamp. -/
def most_recent : List RateRow → Option RateRow
  | [] => none
  | r :: rest =>
      match most_recent rest with
      | none => some r
      | some b => if b.timestamp < r.timestamp then some r else some b

/-- `DatabaseManager.get_cached_rate`: the most recent row for the pair
with `timestamp > now - 1 hour`, else `None`. -/
def get_cached_rate (db : List RateRow) (from_currency to_currency : String)
    (now : ℤ) : Option ℚ :=
  let one_hour_ago := now - one_hour
  let fresh := db.filter fun r =>
    decide (r.base_currency = from_currency)
      && decide (r.target_currency = to_currency)
      && decide (one_hour_ago < r.timestamp)
  (most_recent fresh).map fun r => r.rate

/-- A row of the `conversion_history` table (the columns selected by
`get_conversion_history`). -/
structure ConversionRecord where
  from_currency : String
  to_currency : String
  amount : ℚ
  converted_amount : ℚ
  exchange_rate : ℚ
  timestamp : ℤ
deriving DecidableEq

/-- `DatabaseManager.save_conversion`: one `INSERT`, stamped `now`
(the `CURRENT_TIMESTAMP` default). -/
def save_conversion (db : List ConversionRecord)
    (from_currency to_currency : String) (amount converted_amount rate : ℚ)
    (now : ℤ) : List ConversionRecord :=
  db ++ [{ from_currency := from_currency, to_currency := to_currency,
           amount := amount, converted_amount := converted_amount,
           exchange_rate := rate, timestamp := now }]

/-- Insert a record into a timestamp-descending list, before the first
record whose timestamp is not larger. -/
def insert_by_ts (r : ConversionRecord) :
    List ConversionRecord → List ConversionRecord
  | [] => [r]
  | x :: xs =>
      if x.timestamp ≤ r.timestamp then r :: x :: xs else x :: insert_by_ts r xs

/-- Stable timestamp-descending sort (insertion sort). -/
def sort_by_ts_desc : List ConversionRecord → List ConversionRecord
  | [] => []
  | x :: xs => insert_by_ts x (sort_by_ts_desc xs)

/-- `DatabaseManager.get_conversion_history`: `ORDER BY timestamp DESC
LIMIT ?`.  The scan visits rows in insertion order; sorting is modelled
as a stable descending sort of the reversed table, so equal timestamps
come out most-recently-inserted first.  Per SQLite semantics a negative
`LIMIT` means no limit. -/
def get_conversion_history (db : List ConversionRecord) (limit : ℤ) :
    List ConversionRecord :=
  let ordered := sort_by_ts_desc db.reverse
  if limit < 0 then ordered else ordered.take limit.toNat

/-- The state of the `DatabaseManager`: both tables. -/
structure DatabaseManager where
  exchange_rates : List RateRow
  conversion_history : List ConversionRecord

/-- `cache_exchange_rates` as a transition of the whole database. -/
def DatabaseManager.cache_exchange_rates_op (s : DatabaseManager)
    (base_currency : String) (rates : Rates) (now : ℤ) : DatabaseManager :=
  { s with exchange_rates := cache_exchange_rates s.exchange_rates base_currency rates now }

/-- `get_cached_rate` as an operation on the whole database: a `SELECT`
returns a value and leaves the state as it was. -/
def DatabaseManager.get_cached_rate_op (s : DatabaseManager)
    (from_currency to_currency : String) (now : ℤ) :
    Option ℚ × DatabaseManager :=
  (get_cached_rate s.exchange_rates from_currency to_currency now, s)

/-- `save_conversion` as a transition of the whole database. -/
def DatabaseManager.save_conversion_op (s : DatabaseManager)
    (from_currency to_currency : String) (amount converted_amount rate : ℚ)
    (now : ℤ) : DatabaseManager :=
  { s with conversion_history :=
      (save_conversion s.conversion_history from_currency to_currency
        amount converted_amount rate now) }

/-- `get_conversion_history` as an operation on the whole database. -/
def DatabaseManager.get_conversion_history_op (s : DatabaseManager)
    (limit : ℤ) : List ConversionRecord × DatabaseManager :=
  (get_conversion_history s.conversion_history limit, s)

/-! ## Helper lemmas -/

theorem try_free_apis_eq_none (http : Http) (base_currency : String)
    (l : List String)
    (h : ∀ url ∈ l, ∃ e, fetch_free_rates http url base_currency = .error e) :
    try_free_apis http base_currency l = none := by
  induction l with
  | nil => rfl
  | cons url rest ih =>
      obtain ⟨e, he⟩ := h url (List.mem_cons_self url rest)
      simp only [try_free_apis, he]
      exact ih fun u hu => h u (List.mem_cons_of_mem url hu)

theorem try_free_apis_eq_some (http : Http) (base_currency : String)
    (l : List String) (m : Rates)
    (h : try_free_apis http base_currency l = some m) :
    ∃ url ∈ l, fetch_free_rates http url base_currency = .ok m := by
  induction l with
  | nil => simp [try_free_apis] at h
  | cons url rest ih =>
      simp only [try_free_apis] at h
      cases hf : fetch_free_rates http url base_currency with
      | ok m2 =>
          rw [hf] at h
          exact ⟨url, List.mem_cons_self url rest, by rw [hf, Option.some_inj.mp h]⟩
      | error e =>
          rw [hf] at h
          obtain ⟨u, hu, hok⟩ := ih h
          exact ⟨u, List.mem_cons_of_mem url hu, hok⟩

theorem most_recent_ne_none {l : List RateRow} (h : l ≠ []) :
    most_recent l ≠ none := by
  cases l with
  | nil => exact absurd rfl h
  | cons x rest =>
      simp only [most_recent]
      cases hrec : most_recent rest with
      | none => simp
      | some b => by_cases hts : b.timestamp < x.timestamp <;> simp [hts]

theorem most_recent_mem {l : List RateRow} {r : RateRow}
    (h : most_recent l = some r) : r ∈ l := by
  induction l generalizing r with
  | nil => simp [most_recent] at h
  | cons x rest ih =>
      simp only [most_recent] at h
      cases hrec : most_recent rest with
      | none =>
          simp only [hrec] at h
          cases h
          exact List.mem_cons_self _ _
      | some b =>
          simp only [hrec] at h
          by_cases hts : b.timestamp < x.timestamp
          · rw [if_pos hts] at h
            cases h
            exact List.mem_cons_self _ _
          · rw [if_neg hts] at h
            cases h
            exact List.mem_cons_of_mem x (ih hrec)

theorem most_recent_max {l : List RateRow} {r : RateRow}
    (h : most_recent l = some r) : ∀ x ∈ l, x.timestamp ≤ r.timestamp := by
  induction l generalizing r with
  | nil => simp [most_recent] at h
  | cons x rest ih =>
      simp only [most_recent] at h
      intro y hy
      cases hrec : most_recent rest with
      | none =>
          simp only [hrec] at h
          cases h
          rcases List.mem_cons.mp hy with hyx | hyr
          · exact le_of_eq (congrArg RateRow.timestamp hyx)
          · cases rest with
            | nil => simp at hyr
            | cons z zs => exact absurd hrec (most_recent_ne_none (by simp))
      | some b =>
          simp only [hrec] at h
          by_cases hts : b.timestamp < x.timestamp
          · rw [if_pos hts] at h
            cases h
            rcases List.mem_cons.mp hy with hyx | hyr
            · exact le_of_eq (congrArg RateRow.timestamp hyx)
            · exact (ih hrec y hyr).trans (le_of_lt hts)
          · rw [if_neg hts] at h
            cases h
            rcases List.mem_cons.mp hy with hyx | hyr
            · subst hyx
              exact le_of_not_lt hts
            · exact ih hrec y hyr

theorem most_recent_append_last {l : List RateRow} {r : RateRow}
    (h : ∀ x ∈ l, x.timestamp ≤ r.timestamp) :
    most_recent (l ++ [r]) = some r := by
  induction l with
  | nil => rfl
  | cons x rest ih =>
      have hx : x.timestamp ≤ r.timestamp := h x (List.mem_cons_self x rest)
      have hrest := ih fun y hy => h y (List.mem_cons_of_mem x hy)
      rw [List.cons_append]
      simp only [most_recent, hrest]
      rw [if_neg (not_lt.mpr hx)]

/-- Count of an element in a Bool-filtered list. -/
theorem count_filter_eq {α : Type} [DecidableEq α] (p : α → Bool)
    (l : List α) (a : α) :
    (l.filter p).count a = if p a then l.count a else 0 := by
  induction l with
  | nil => simp
  | cons x rest ih =>
      rw [List.filter_cons]
      by_cases hpx : p x = true
      · by_cases hax : a = x
        · subst hax
          simp [hpx, ih]
        · simp [hpx, List.count_cons_of_ne hax, ih]
      · by_cases hax : a = x
        · subst hax
          simp [hpx, ih]
        · simp [hpx, List.count_cons_of_ne hax, ih]

/-- In a mapping with distinct keys, filtering on one present key
yields exactly that binding. -/
theorem filter_key_eq_of_nodup (rates : Rates) (t : String) (q : ℚ)
    (hnd : (rates.map Prod.fst).Nodup) (hmem : (t, q) ∈ rates) :
    rates.filter (fun p => decide (p.1 = t)) = [(t, q)] := by
  induction rates with
  | nil => simp at hmem
  | cons a rest ih =>
      rcases List.mem_cons.mp hmem with hat | hrest
      · have hkey : a.1 = t := by rw [← hat]
        have hnotin : ∀ p ∈ rest, ¬(p.1 = t) := by
          intro p hp hpt
          have : a.1 ∈ rest.map Prod.fst := by
            rw [hkey, ← hpt]; exact List.mem_map_of_mem Prod.fst hp
          exact (List.nodup_cons.mp hnd).1 this
        rw [List.filter_cons_of_pos (by simpa using hkey)]
        rw [← hat]
        congr 1
        exact List.filter_eq_nil_iff.mpr (by simpa using hnotin)
      · have hat : ¬(a.1 = t) := by
          intro hpt
          have : a.1 ∈ rest.map Prod.fst := by
            rw [hpt]
            exact List.mem_map.mpr ⟨(t, q), hrest, rfl⟩
          exact (List.nodup_cons.mp hnd).1 this
        rw [List.filter_cons_of_neg (by simpa using hat)]
        exact ih (List.nodup_cons.mp hnd).2 hrest

theorem insert_by_ts_perm (r : ConversionRecord) (l : List ConversionRecord) :
    (insert_by_ts r l).Perm (r :: l) := by
  induction l with
  | nil => exact List.Perm.refl _
  | cons x xs ih =>
      simp only [insert_by_ts]
      by_cases h : x.timestamp ≤ r.timestamp
      · rw [if_pos h]
      · rw [if_neg h]
        exact (List.Perm.cons x ih).trans (List.Perm.swap r x xs)

theorem sort_by_ts_desc_perm (l : List ConversionRecord) :
    (sort_by_ts_desc l).Perm l := by
  induction l with
  | nil => exact List.Perm.refl _
  | cons x xs ih =>
      simp only [sort_by_ts_desc]
      exact (insert_by_ts_perm x _).trans (List.Perm.cons x ih)

theorem sort_by_ts_desc_of_sorted (l : List ConversionRecord)
    (h : List.Chain' (fun a b => b.timestamp ≤ a.timestamp) l) :
    sort_by_ts_desc l = l := by
  induction l with
  | nil => rfl
  | cons x rest ih =>
      simp only [sort_by_ts_desc]
      rw [ih h.tail]
      cases rest with
      | nil => rfl
      | cons y ys =>
          simp only [insert_by_ts]
          rw [if_pos (List.chain'_cons.mp h).1]

theorem try_free_apis_trace_spec (http : Http) (base_currency : String)
    (l : List String) : ∀ i : ℕ,
    try_free_apis_trace http base_currency i l
      = spec_run ((l.enumFrom i).map
          fun p => (Source.free p.1, fetch_free_rates http p.2 base_currency)) := by
  induction l with
  | nil => intro i; rfl
  | cons url rest ih =>
      intro i
      cases hf : fetch_free_rates http url base_currency with
      | ok m =>
          simp only [try_free_apis_trace, List.enumFrom, List.map, spec_run, hf]
      | error e =>
          simp only [try_free_apis_trace, List.enumFrom, List.map, spec_run, hf,
            ih (i + 1)]

theorem try_free_apis_trace_snd (http : Http) (base_currency : String)
    (l : List String) : ∀ i : ℕ,
    (try_free_apis_trace http base_currency i l).2
      = try_free_apis http base_currency l := by
  induction l with
  | nil => intro i; rfl
  | cons url rest ih =>
      intro i
      cases hf : fetch_free_rates http url base_currency with
      | ok m =>
          simp only [try_free_apis_trace, try_free_apis, hf]
      | error e =>
          simp only [try_free_apis_trace, try_free_apis, hf, ih (i + 1)]

theorem get_exchange_rates_trace_spec (api : CurrencyAPI) (http : Http)
    (base_currency : String) :
    get_exchange_rates_trace api http base_currency
      = ((spec_run (spec_outcomes api http base_currency)).1,
         (spec_run (spec_outcomes api http base_currency)).2.getD
           get_fallback_rates) := by
  by_cases hk : truthy api.api_key
  · cases hp : fetch_premium_rates api http base_currency with
    | ok m =>
        simp only [get_exchange_rates_trace, spec_outcomes, hk, if_pos, hp,
          List.cons_append, List.nil_append, spec_run, Option.getD_some]
    | error e =>
        simp only [get_exchange_rates_trace, spec_outcomes, hk, if_pos, hp,
          List.cons_append, List.nil_append, spec_run,
          try_free_apis_trace_spec http base_currency free_apis 0]
        rfl
  · simp only [get_exchange_rates_trace, spec_outcomes, hk]
    simp only [Bool.false_eq_true, if_false, List.nil_append,
      try_free_apis_trace_spec http base_currency free_apis 0]
    rfl

theorem get_exchange_rates_trace_snd (api : CurrencyAPI) (http : Http)
    (base_currency : String) :
    (get_exchange_rates_trace api http base_currency).2
      = get_exchange_rates api http base_currency := by
  by_cases hk : truthy api.api_key
  · cases hp : fetch_premium_rates api http base_currency with
    | ok m =>
        simp only [get_exchange_rates_trace, get_exchange_rates, hk, if_pos, hp]
    | error e =>
        simp only [get_exchange_rates_trace, get_exchange_rates, hk, if_pos, hp,
          try_free_apis_trace_snd http base_currency free_apis 0]
  · simp only [get_exchange_rates_trace, get_exchange_rates, hk,
      Bool.false_eq_true, if_false,
      try_free_apis_trace_snd http base_currency free_apis 0]

theorem spec_run_fst_sublist (l : List (Source × Except String Rates)) :
    (spec_run l).1.Sublist (l.map Prod.fst) := by
  induction l with
  | nil => simp [spec_run]
  | cons x rest ih =>
      obtain ⟨s, o⟩ := x
      cases o with
      | ok m =>
          simp only [spec_run, List.map]
          exact (List.nil_sublist _).cons₂ s
      | error e =>
          simp only [spec_run, List.map]
          exact ih.cons₂ s

theorem spec_outcomes_fst (api : CurrencyAPI) (http : Http)
    (base_currency : String) :
    (spec_outcomes api http base_currency).map Prod.fst
      = (if truthy api.api_key then [Source.premium] else [])
        ++ [Source.free 0, Source.free 1] := by
  by_cases hk : truthy api.api_key <;>
    simp [spec_outcomes, hk, free_apis, List.enum, List.enumFrom]

/-! ## Claims -/

/-- C1: `get_exchange_rates` never fails (it is total with result type a
rate mapping); when the premium source fails (whenever attempted) and
every free source fails, the result is exactly the static fallback
table, which has 24 currencies. -/
theorem get_exchange_rates_all_fail_eq_fallback (api : CurrencyAPI)
    (http : Http) (base_currency : String)
    (hp : truthy api.api_key = true →
      ∃ e, fetch_premium_rates api http base_currency = .error e)
    (hf : ∀ url ∈ free_apis,
      ∃ e, fetch_free_rates http url base_currency = .error e) :
    get_exchange_rates api http base_currency = get_fallback_rates
      ∧ get_fallback_rates.length = 24 := by
  refine ⟨?_, by decide⟩
  have hnone := try_free_apis_eq_none http base_currency free_apis hf
  by_cases hk : truthy api.api_key
  · obtain ⟨e, he⟩ := hp hk
    simp [get_exchange_rates, hk, he, hnone]
  · simp [get_exchange_rates, hk, hnone]

/-- C1 witness: with no API key and a network where every request
fails, the resolver returns the 24-entry fallback table. -/
theorem get_exchange_rates_all_fail_eq_fallback_witness :
    get_exchange_rates { api_key := none } (fun _ => .failure) "USD"
        = get_fallback_rates
      ∧ get_fallback_rates.length = 24 :=
  get_exchange_rates_all_fail_eq_fallback _ _ _
    (fun _ => ⟨"HTTPError", rfl⟩) (fun _ _ => ⟨"HTTPError", rfl⟩)

/-- C2 counterexample: with no API key and a first free source whose
JSON response has a `rates` field holding an empty mapping, the code
returns that empty mapping verbatim, so the result is empty and does
not contain "USD". -/
theorem get_exchange_rates_empty_counterexample :
    get_exchange_rates { api_key := none }
        (fun _ => .success { rates := some [] }) "USD" = []
      ∧ ¬ "USD" ∈ (get_exchange_rates { api_key := none }
          (fun _ => .success { rates := some [] }) "USD").map Prod.fst :=
  ⟨rfl, by decide⟩

/-- C2 amended: the result is non-empty and contains "USD" provided
every source that succeeds returns such a mapping (the code returns a
successful source's mapping verbatim, without validation); in the
all-fail case this holds unconditionally of the fallback table. -/
theorem get_exchange_rates_nonempty_has_usd (api : CurrencyAPI)
    (http : Http) (base_currency : String)
    (hp : ∀ m, fetch_premium_rates api http base_currency = .ok m →
      m ≠ [] ∧ "USD" ∈ m.map Prod.fst)
    (hf : ∀ url ∈ free_apis, ∀ m,
      fetch_free_rates http url base_currency = .ok m →
      m ≠ [] ∧ "USD" ∈ m.map Prod.fst) :
    get_exchange_rates api http base_currency ≠ []
      ∧ "USD" ∈ (get_exchange_rates api http base_currency).map Prod.fst := by
  have hfall : get_fallback_rates ≠ []
      ∧ "USD" ∈ get_fallback_rates.map Prod.fst := by decide
  by_cases hk : truthy api.api_key
  · cases hpre : fetch_premium_rates api http base_currency with
    | ok m =>
        have := hp m hpre
        simpa [get_exchange_rates, hk, hpre] using this
    | error e =>
        cases hfree : try_free_apis http base_currency free_apis with
        | some m =>
            obtain ⟨url, hu, hok⟩ := try_free_apis_eq_some _ _ _ _ hfree
            have := hf url hu m hok
            simpa [get_exchange_rates, hk, hpre, hfree] using this
        | none =>
            simpa [get_exchange_rates, hk, hpre, hfree] using hfall
  · cases hfree : try_free_apis http base_currency free_apis with
    | some m =>
        obtain ⟨url, hu, hok⟩ := try_free_apis_eq_some _ _ _ _ hfree
        have := hf url hu m hok
        simpa [get_exchange_rates, hk, hfree] using this
    | none =>
        simpa [get_exchange_rates, hk, hfree] using hfall

/-- C4 counterexample: the code never validates rates: caching the
upstream mapping `{"EUR": -1}` stores rate `-1`, and `get_cached_rate`
returns it, so not every stored or returned rate is `> 0`. -/
theorem rate_positive_counterexample :
    get_cached_rate (cache_exchange_rates [] "USD" [("EUR", -1)] 0)
        "USD" "EUR" 0 = some (-1)
      ∧ ¬ (0 : ℚ) < -1 :=
  ⟨rfl, by norm_num⟩

/-- C4 amended: every rate in the static fallback table is strictly
positive, and the cache merely preserves positivity: rates are stored
and returned verbatim, so if every prior cached rate and every rate in
the mapping being cached is positive, every stored rate and every rate
`get_cached_rate` returns is positive. -/
theorem rates_positive :
    (∀ p ∈ get_fallback_rates, 0 < p.2)
      ∧ (∀ (db : List RateRow) (base_currency : String) (rates : Rates) (now : ℤ),
          (∀ r ∈ db, 0 < r.rate) → (∀ p ∈ rates, 0 < p.2) →
          ∀ r ∈ cache_exchange_rates db base_currency rates now, 0 < r.rate)
      ∧ (∀ (db : List RateRow) (from_currency to_currency : String) (now : ℤ) (q : ℚ),
          (∀ r ∈ db, 0 < r.rate) →
          get_cached_rate db from_currency to_currency now = some q → 0 < q) := by
  refine ⟨by norm_num [get_fallback_rates, List.forall_mem_cons], ?_, ?_⟩
  · intro db base_currency rates now hdb hrates r hr
    simp only [cache_exchange_rates] at hr
    rcases List.mem_append.mp hr with hold | hnew
    · exact hdb r (List.mem_filter.mp hold).1
    · obtain ⟨p, hp, hmk⟩ := List.mem_map.mp hnew
      rw [← hmk]
      exact hrates p hp
  · intro db from_currency to_currency now q hdb hq
    simp only [get_cached_rate] at hq
    obtain ⟨row, hrow, hrate⟩ := Option.map_eq_some'.mp hq
    rw [← hrate]
    exact hdb row (List.mem_filter.mp (most_recent_mem hrow)).1

/-- C4 amended, witness. -/
theorem rates_positive_witness :
    ∀ r ∈ cache_exchange_rates [] "USD" [("EUR", 85/100)] 0, 0 < r.rate :=
  rates_positive.2.1 [] "USD" [("EUR", 85/100)] 0
    (by intro r hr; cases hr) (by norm_num [List.forall_mem_cons])

/-- C5: `get_cached_rate` returns a rate only when a row for the pair
lies strictly inside the one-hour freshness window before the reference
time (all rows of a prior cache state carry timestamps at or before the
reference time), and it returns the rate of a most-recent such row; if
every row for the pair is older than one hour it reports a miss.  In
particular putting `{"EUR": 0.85}` for "USD" at `t0` gives a hit at
`t0 + 30` minutes and a miss at `t0 + 61` minutes. -/
theorem get_cached_rate_freshness :
    (∀ (db : List RateRow) (from_currency to_currency : String) (now : ℤ),
      (∀ r ∈ db, r.timestamp ≤ now) →
      ((∀ q, get_cached_rate db from_currency to_currency now = some q →
          ∃ r ∈ db, r.base_currency = from_currency
            ∧ r.target_currency = to_currency
            ∧ now - one_hour < r.timestamp ∧ r.timestamp ≤ now ∧ r.rate = q
            ∧ ∀ x ∈ db, x.base_currency = from_currency →
                x.target_currency = to_currency →
                now - one_hour < x.timestamp → x.timestamp ≤ r.timestamp)
        ∧ ((∀ r ∈ db, r.base_currency = from_currency →
              r.target_currency = to_currency →
              r.timestamp < now - one_hour) →
            get_cached_rate db from_currency to_currency now = none)))
    ∧ (∀ t0 : ℤ,
        get_cached_rate (cache_exchange_rates [] "USD" [("EUR", 85/100)] t0)
          "USD" "EUR" (t0 + 30) = some (85/100)
        ∧ get_cached_rate (cache_exchange_rates [] "USD" [("EUR", 85/100)] t0)
          "USD" "EUR" (t0 + 61) = none) := by
  constructor
  · intro db from_currency to_currency now hpast
    constructor
    · intro q hq
      simp only [get_cached_rate] at hq
      obtain ⟨row, hrow, hrate⟩ := Option.map_eq_some'.mp hq
      have hmem := List.mem_filter.mp (most_recent_mem hrow)
      have hpred := hmem.2
      simp only [Bool.and_eq_true, decide_eq_true_eq] at hpred
      refine ⟨row, hmem.1, hpred.1.1, hpred.1.2, hpred.2,
        hpast row hmem.1, hrate, ?_⟩
      intro x hx hxb hxt hxts
      refine most_recent_max hrow x (List.mem_filter.mpr ⟨hx, ?_⟩)
      simp only [Bool.and_eq_true, decide_eq_true_eq]
      exact ⟨⟨hxb, hxt⟩, hxts⟩
    · intro hstale
      simp only [get_cached_rate]
      have hnil : db.filter (fun r =>
          decide (r.base_currency = from_currency)
            && decide (r.target_currency = to_currency)
            && decide (now - one_hour < r.timestamp)) = [] := by
        refine List.filter_eq_nil_iff.mpr ?_
        intro r hr
        simp only [Bool.and_eq_true, decide_eq_true_eq, not_and]
        intro hpair hts
        exact absurd (hstale r hr hpair.1 hpair.2) (by omega)
      rw [hnil]
      rfl
  · intro t0
    have h30 : t0 + 30 - one_hour < t0 := by simp only [one_hour]; omega
    have h61 : ¬ (t0 + 61 - one_hour < t0) := by simp only [one_hour]; omega
    constructor
    · simp [cache_exchange_rates, get_cached_rate, most_recent, h30]
    · simp [cache_exchange_rates, get_cached_rate, most_recent, h61]

/-- C5 witness: a row cached 70 minutes ago misses. -/
theorem get_cached_rate_freshness_witness :
    get_cached_rate
      [{ base_currency := "USD", target_currency := "EUR",
         rate := 85/100, timestamp := -70 }] "USD" "EUR" 0 = none :=
  (get_cached_rate_freshness.1
      [{ base_currency := "USD", target_currency := "EUR",
         rate := 85/100, timestamp := -70 }] "USD" "EUR" 0
      (by intro r hr; simp at hr; rw [hr]; norm_num)).2
    (by intro r hr; simp at hr; intro _ _; rw [hr]; simp [one_hour])

/-- C6: caching a mapping and immediately reading the same pair at the
same reference time returns exactly the rate just stored (prior rows
carry timestamps at or before the reference time, and a mapping, being
a dictionary, has distinct keys). -/
theorem cache_then_get_roundtrip (db : List RateRow)
    (base_currency target : String) (rates : Rates) (now : ℤ) (q : ℚ)
    (hpast : ∀ r ∈ db, r.timestamp ≤ now)
    (hnd : (rates.map Prod.fst).Nodup)
    (hmem : (target, q) ∈ rates) :
    get_cached_rate (cache_exchange_rates db base_currency rates now)
      base_currency target now = some q := by
  simp only [get_cached_rate, cache_exchange_rates, List.filter_append]
  have hnew : (rates.map fun p =>
      ({ base_currency := base_currency, target_currency := p.1,
         rate := p.2, timestamp := now } : RateRow)).filter (fun r =>
        decide (r.base_currency = base_currency)
          && decide (r.target_currency = target)
          && decide (now - one_hour < r.timestamp))
      = [{ base_currency := base_currency, target_currency := target,
           rate := q, timestamp := now }] := by
    rw [List.filter_map]
    have hcong : rates.filter (fun p =>
        (decide ((base_currency : String) = base_currency)
          && decide (p.1 = target)
          && decide (now - one_hour < now)))
        = rates.filter (fun p => decide (p.1 = target)) := by
      refine List.filter_congr ?_
      intro p _
      have h2 : now - one_hour < now := by simp only [one_hour]; omega
      simp [h2]
    have : (fun (r : RateRow) =>
        decide (r.base_currency = base_currency)
          && decide (r.target_currency = target)
          && decide (now - one_hour < r.timestamp)) ∘
        (fun p =>
          ({ base_currency := base_currency, target_currency := p.1,
             rate := p.2, timestamp := now } : RateRow))
        = fun (p : String × ℚ) =>
            (decide ((base_currency : String) = base_currency)
              && decide (p.1 = target)
              && decide (now - one_hour < now)) := rfl
    rw [this, hcong, filter_key_eq_of_nodup rates target q hnd hmem]
    rfl
  rw [hnew]
  have hle : ∀ x ∈ (db.filter fun r =>
      !(decide (r.base_currency = base_currency)
        && decide (r.timestamp < now - one_hour))).filter (fun r =>
        decide (r.base_currency = base_currency)
          && decide (r.target_currency = target)
          && decide (now - one_hour < r.timestamp)),
      x.timestamp ≤
        ({ base_currency := base_currency, target_currency := target,
           rate := q, timestamp := now } : RateRow).timestamp := by
    intro x hx
    exact hpast x (List.mem_filter.mp (List.mem_filter.mp hx).1).1
  rw [most_recent_append_last hle]
  rfl

/-- C6 witness: an older fresh row for the same pair does not shadow
the newly stored rate. -/
theorem cache_then_get_roundtrip_witness :
    get_cached_rate (cache_exchange_rates
        [{ base_currency := "USD", target_currency := "EUR",
           rate := 1/2, timestamp := 50 }]
        "USD" [("EUR", 85/100), ("GBP", 73/100)] 60)
      "USD" "EUR" 60 = some (85/100) :=
  cache_then_get_roundtrip _ "USD" "EUR" _ 60 (85/100)
    (by intro r hr; simp at hr; rw [hr]; norm_num) (by decide)
    (List.mem_cons_self _ _)

/-- C7: `cache_exchange_rates` deletes exactly the rows of the given
base currency older than one hour, keeps every other row (other bases,
and fresh rows of this base), and appends one row per target currency
of the mapping, each stamped with the current time. -/
theorem cache_exchange_rates_frame (db : List RateRow)
    (base_currency : String) (rates : Rates) (now : ℤ) :
    (∀ r : RateRow,
        (cache_exchange_rates db base_currency rates now).count r
          = (if r.base_currency = base_currency ∧ r.timestamp < now - one_hour
             then 0 else db.count r)
            + (rates.map fun p =>
                ({ base_currency := base_currency, target_currency := p.1,
                   rate := p.2, timestamp := now } : RateRow)).count r)
      ∧ (∀ p ∈ rates,
          ({ base_currency := base_currency, target_currency := p.1,
             rate := p.2, timestamp := now } : RateRow)
            ∈ cache_exchange_rates db base_currency rates now)
      ∧ (∀ r ∈ db,
          ¬(r.base_currency = base_currency ∧ r.timestamp < now - one_hour) →
          r ∈ cache_exchange_rates db base_currency rates now) := by
  refine ⟨?_, ?_, ?_⟩
  · intro r
    simp only [cache_exchange_rates, List.count_append]
    congr 1
    rw [count_filter_eq]
    by_cases hdel : r.base_currency = base_currency ∧ r.timestamp < now - one_hour
    · rw [if_pos hdel, if_neg]
      simp only [Bool.not_eq_true', Bool.and_eq_true, decide_eq_true_eq]
      simp [hdel.1, hdel.2]
    · rw [if_neg hdel, if_pos]
      simp only [Bool.not_eq_true', Bool.and_eq_true, decide_eq_true_eq]
      rw [Bool.and_eq_false_iff]
      rcases Decidable.not_and_iff_or_not.mp hdel with hb | hts
      · exact Or.inl (by simpa using hb)
      · exact Or.inr (by simpa using hts)
  · intro p hp
    simp only [cache_exchange_rates]
    exact List.mem_append_right _ (List.mem_map_of_mem _ hp)
  · intro r hr hkeep
    simp only [cache_exchange_rates]
    refine List.mem_append_left _ (List.mem_filter.mpr ⟨hr, ?_⟩)
    simp only [Bool.not_eq_true', Bool.and_eq_false_iff]
    rcases Decidable.not_and_iff_or_not.mp hkeep with hb | hts
    · exact Or.inl (by simpa using hb)
    · exact Or.inr (by simpa using hts)

/-- C7 witness: a stale row of the cached base is deleted, a stale row
of another base survives, and the new row is inserted. -/
theorem cache_exchange_rates_frame_witness :
    (cache_exchange_rates
        [{ base_currency := "USD", target_currency := "EUR",
           rate := 1/2, timestamp := -100 }]
        "USD" [("EUR", 85/100)] 0).count
      { base_currency := "USD", target_currency := "EUR",
        rate := 1/2, timestamp := -100 }
      = (if ("USD" : String) = "USD" ∧ (-100 : ℤ) < 0 - one_hour
         then 0
         else [({ base_currency := "USD", target_currency := "EUR",
                  rate := 1/2, timestamp := -100 } : RateRow)].count
           { base_currency := "USD", target_currency := "EUR",
             rate := 1/2, timestamp := -100 })
        + ([("EUR", (85/100 : ℚ))].map fun p =>
            ({ base_currency := "USD", target_currency := p.1,
               rate := p.2, timestamp := 0 } : RateRow)).count
          { base_currency := "USD", target_currency := "EUR",
            rate := 1/2, timestamp := -100 } :=
  (cache_exchange_rates_frame _ "USD" _ 0).1 _

/-- C2 amended, witness: every request fails, so both hypotheses hold
vacuously and the fallback result contains "USD". -/
theorem get_exchange_rates_nonempty_has_usd_witness :
    get_exchange_rates { api_key := none } (fun _ => .failure) "USD" ≠ []
      ∧ "USD" ∈ (get_exchange_rates { api_key := none }
          (fun _ => .failure) "USD").map Prod.fst :=
  get_exchange_rates_nonempty_has_usd _ _ _
    (fun _ h => Except.noConfusion h)
    (fun _ _ _ h => Except.noConfusion h)

/-- C8 counterexample: with a negative limit, `get_conversion_history`
returns every record (SQLite treats a negative `LIMIT` as no limit), so
"at most `n` records" fails at `n = -1` on a one-record history. -/
theorem get_conversion_history_negative_counterexample :
    ¬ (((get_conversion_history
          [{ from_currency := "USD", to_currency := "EUR", amount := 100,
             converted_amount := 85, exchange_rate := 85/100,
             timestamp := 0 }] (-1)).length : ℤ) ≤ -1) := by
  simp [get_conversion_history, sort_by_ts_desc, insert_by_ts]

/-- C8 amended: for every non-negative limit `n` and every history
whose records were appended in timestamp order, `get_conversion_history`
returns at most `n` records, ordered by timestamp descending, and equal
to the reverse of the append order truncated to `n`. -/
theorem get_conversion_history_recent (db : List ConversionRecord) (n : ℤ)
    (hn : 0 ≤ n)
    (hts : List.Chain' (fun a b => a.timestamp ≤ b.timestamp) db) :
    get_conversion_history db n = db.reverse.take n.toNat
      ∧ (get_conversion_history db n).length ≤ n.toNat
      ∧ List.Chain' (fun a b => b.timestamp ≤ a.timestamp)
          (get_conversion_history db n) := by
  have hrev : List.Chain' (fun a b => b.timestamp ≤ a.timestamp) db.reverse := by
    rw [List.chain'_reverse]
    exact hts
  have heq : get_conversion_history db n = db.reverse.take n.toNat := by
    unfold get_conversion_history
    rw [if_neg (not_lt.mpr hn), sort_by_ts_desc_of_sorted _ hrev]
  refine ⟨heq, ?_, ?_⟩
  · rw [heq]
    exact List.length_take_le _ _
  · rw [heq]
    exact hrev.take _

/-- C8 amended, witness: two records appended at times 0 and 1, limit 1
returns just the most recent. -/
theorem get_conversion_history_recent_witness :
    get_conversion_history
        [{ from_currency := "USD", to_currency := "EUR", amount := 100,
           converted_amount := 85, exchange_rate := 85/100, timestamp := 0 },
         { from_currency := "EUR", to_currency := "USD", amount := 85,
           converted_amount := 100, exchange_rate := 117/100,
           timestamp := 1 }] 1
      = [{ from_currency := "USD", to_currency := "EUR", amount := 100,
           converted_amount := 85, exchange_rate := 85/100, timestamp := 0 },
         { from_currency := "EUR", to_currency := "USD", amount := 85,
           converted_amount := 100, exchange_rate := 117/100,
           timestamp := 1 }].reverse.take (1 : ℤ).toNat :=
  (get_conversion_history_recent _ 1 (by norm_num)
    (by simp [List.chain'_cons])).1

/-- C9: the conversion history is append-only: `save_conversion`
appends exactly one record, leaving every prior record in place, and
none of the other operations (`cache_exchange_rates`,
`get_cached_rate`, `get_conversion_history`) changes the history. -/
theorem conversion_history_append_only (s : DatabaseManager)
    (from_currency to_currency : String) (amount converted_amount rate : ℚ)
    (now : ℤ) (base2 : String) (rates2 : Rates) (now2 : ℤ)
    (from3 to3 : String) (now3 : ℤ) (limit : ℤ) :
    (s.save_conversion_op from_currency to_currency amount converted_amount
          rate now).conversion_history
        = s.conversion_history ++
          [{ from_currency := from_currency, to_currency := to_currency,
             amount := amount, converted_amount := converted_amount,
             exchange_rate := rate, timestamp := now }]
      ∧ (s.cache_exchange_rates_op base2 rates2 now2).conversion_history
          = s.conversion_history
      ∧ (s.get_cached_rate_op from3 to3 now3).2 = s
      ∧ (s.get_conversion_history_op limit).2 = s :=
  ⟨rfl, rfl, rfl, rfl⟩

/-- C10: a negative `LIMIT` places no bound: `get_conversion_history`
then returns every record of the history. -/
theorem get_conversion_history_negative_limit (db : List ConversionRecord)
    (n : ℤ) (hn : n < 0) :
    (get_conversion_history db n).length = db.length
      ∧ ∀ r, r ∈ get_conversion_history db n ↔ r ∈ db := by
  have hperm := sort_by_ts_desc_perm db.reverse
  unfold get_conversion_history
  rw [if_pos hn]
  refine ⟨?_, ?_⟩
  · rw [hperm.length_eq, List.length_reverse]
  · intro r
    rw [hperm.mem_iff, List.mem_reverse]

/-- C3: the resolution order: the instrumented resolver runs the
spec-side chain (premium first exactly when a key is configured, then
the free sources in priority order, stopping at the first success,
falling back to the static table); its result is the plain resolver's
result; no source is attempted twice; the premium source is attempted
iff a key is configured, and then it is attempted first; a free
source's fetch succeeds iff its JSON response has a `rates` or a
`conversion_rates` field. -/
theorem get_exchange_rates_source_order (api : CurrencyAPI) (http : Http)
    (base_currency : String) :
    (get_exchange_rates_trace api http base_currency
        = ((spec_run (spec_outcomes api http base_currency)).1,
           (spec_run (spec_outcomes api http base_currency)).2.getD
             get_fallback_rates))
      ∧ (get_exchange_rates_trace api http base_currency).2
          = get_exchange_rates api http base_currency
      ∧ (get_exchange_rates_trace api http base_currency).1.Nodup
      ∧ (Source.premium ∈ (get_exchange_rates_trace api http base_currency).1
          ↔ truthy api.api_key = true)
      ∧ (truthy api.api_key = true →
          (get_exchange_rates_trace api http base_currency).1.head?
            = some Source.premium)
      ∧ (∀ url data, http (url ++ base_currency) = .success data →
          ((∃ m, fetch_free_rates http url base_currency = .ok m)
            ↔ (data.rates.isSome ∨ data.conversion_rates.isSome))) := by
  have hspec := get_exchange_rates_trace_spec api http base_currency
  have hsub := spec_run_fst_sublist (spec_outcomes api http base_currency)
  have hfst := spec_outcomes_fst api http base_currency
  have hnodup_src : ((spec_outcomes api http base_currency).map Prod.fst).Nodup := by
    by_cases hk : truthy api.api_key
    · rw [hfst, if_pos hk]; decide
    · rw [hfst, if_neg hk]; decide
  have hhead : truthy api.api_key = true →
      (spec_run (spec_outcomes api http base_currency)).1.head?
        = some Source.premium := by
    intro hk
    cases hp : fetch_premium_rates api http base_currency with
    | ok m => simp [spec_outcomes, hk, spec_run, hp]
    | error e => simp [spec_outcomes, hk, spec_run, hp]
  refine ⟨hspec, get_exchange_rates_trace_snd api http base_currency, ?_, ?_, ?_, ?_⟩
  · rw [hspec]
    exact List.Nodup.sublist hsub hnodup_src
  · rw [hspec]
    constructor
    · intro hmem
      by_contra hk
      have hmem2 := hsub.subset hmem
      rw [hfst, if_neg hk] at hmem2
      simp at hmem2
    · intro hk
      have hh := hhead hk
      cases hl : (spec_run (spec_outcomes api http base_currency)).1 with
      | nil => rw [hl] at hh; exact Option.noConfusion hh
      | cons s tl =>
          rw [hl] at hh
          simp only [List.head?_cons, Option.some_inj] at hh
          rw [← hh]
          exact List.mem_cons_self s tl
  · intro hk
    rw [hspec]
    exact hhead hk
  · intro url data hdata
    obtain ⟨res, rs, cr, et⟩ := data
    cases rs <;> cases cr <;> simp [fetch_free_rates, hdata]

/-- C3 witness: with a configured key, the premium source is attempted
first. -/
theorem get_exchange_rates_source_order_witness :
    (get_exchange_rates_trace { api_key := some "KEY" } (fun _ => .failure)
        "USD").1.head? = some Source.premium :=
  (get_exchange_rates_source_order { api_key := some "KEY" }
      (fun _ => .failure) "USD").2.2.2.2.1 (by decide)

/-- C10 witness. -/
theorem get_conversion_history_negative_limit_witness :
    (get_conversion_history
        [{ from_currency := "USD", to_currency := "EUR", amount := 100,
           converted_amount := 85, exchange_rate := 85/100,
           timestamp := 0 }] (-1)).length
      = [({ from_currency := "USD", to_currency := "EUR", amount := 100,
            converted_amount := 85, exchange_rate := 85/100,
            timestamp := 0 } : ConversionRecord)].length :=
  (get_conversion_history_negative_limit _ (-1) (by norm_num)).1
